import Mathlib

/-!
# aqmap: freshness cache and change broadcast

A shallow embedding of `fetchMeasurements` and of the polling loop of `main`
(`main.go`).  The process state that the code mutates is the package-level map
`measurementCache`; it is passed explicitly.  The observable effects of a call
(HTTP fetch, lock operations, log lines, bus publications) are returned as a list
in program order.
-/

namespace Aqmap

/-! ## Data model -/

/-- A Go `time.Time` without monotonic clock reading, as produced by decoding
JSON: seconds since the epoch, nanoseconds within the second, and the location
the instant is displayed in.  The location takes no part in comparisons. -/
structure Time where
  sec : Int
  nsec : Nat
  loc : String
deriving DecidableEq, Repr

/-- Go `t.Equal(u)`: same instant, whatever the locations. -/
def Time.Equal (t u : Time) : Bool :=
  t.sec == u.sec && t.nsec == u.nsec

/-- Go `t.Before(u)`. -/
def Time.Before (t u : Time) : Bool :=
  decide (t.sec < u.sec) || (t.sec == u.sec && decide (t.nsec < u.nsec))

/-- Go `t.After(u)`. -/
def Time.After (t u : Time) : Bool :=
  decide (t.sec > u.sec) || (t.sec == u.sec && decide (t.nsec > u.nsec))

/-- The instant `t` is equal to or earlier than the instant `u`. -/
def Time.le (t u : Time) : Prop :=
  t.Before u = true ∨ t.Equal u = true

instance (t u : Time) : Decidable (Time.le t u) := by
  unfold Time.le; infer_instance

/-- A Go `float64`, kept as its IEEE-754 bit pattern.  The program only copies
these fields; it never computes with them. -/
abbrev Float64 := Nat

/-- The record type `Measurement` of `main.go`. -/
structure Measurement where
  Sensor : String
  Source : String
  PM1Dot0 : Float64
  PM2Dot5 : Float64
  PM10 : Float64
  Latitude : Float64
  Longitude : Float64
  Recorded : Time
deriving DecidableEq, Repr

/-- The Go map `measurementCache : map[string]Measurement`, as an association
list.  A map of the program has each key at most once (`Cache.WF`); the
operations below are defined on every list and keep that property. -/
structure Cache where
  entries : List (String × Measurement)
deriving DecidableEq, Repr

/-- The value of `make(map[string]Measurement)`. -/
def Cache.empty : Cache := ⟨[]⟩

/-- Lookup in an association list: the first entry under key `k`. -/
def lookupEntry (k : String) : List (String × Measurement) → Option Measurement
  | [] => none
  | (k1, m) :: rest => if k1 = k then some m else lookupEntry k rest

/-- Assignment in an association list: overwrite the entry under `k`, or add one. -/
def assignEntry (k : String) (v : Measurement) :
    List (String × Measurement) → List (String × Measurement)
  | [] => [(k, v)]
  | (k1, m) :: rest => if k1 = k then (k, v) :: rest else (k1, m) :: assignEntry k v rest

/-- Go `m, exists := measurementCache[k]`: `none` stands for `exists = false`. -/
def Cache.get (c : Cache) (k : String) : Option Measurement :=
  lookupEntry k c.entries

/-- Go `measurementCache[k] = v`. -/
def Cache.set (c : Cache) (k : String) (v : Measurement) : Cache :=
  ⟨assignEntry k v c.entries⟩

/-- The keys of the map. -/
def Cache.keys (c : Cache) : List String :=
  c.entries.map Prod.fst

/-- Go `len(measurementCache)`. -/
def Cache.len (c : Cache) : Nat :=
  c.entries.length

/-- Every key occurs once. -/
def Cache.WF (c : Cache) : Prop :=
  c.keys.Nodup

/-! ## Effects -/

/-- The constant `measurementsURL`. -/
def measurementsURL : String := "https://rald-dev.greenbeep.com/api/v1/measurements"

/-- The constant `topic`. -/
def topic : String := "measurements"

/-- What a call of `fetchMeasurements` does to the outside, in program order.
`publish t v` stands for `rdb.Publish(ctx, t, string(json.Marshal(&v)))`: the
payload is the JSON form of the record `v`. -/
inductive Effect where
  | httpGet (url : String)
  | lock
  | unlock
  | printf (line : String)
  | publish (channel : String) (v : Measurement)
deriving DecidableEq, Repr

/-- The records published to the bus, in publish order. -/
def published : List Effect → List Measurement
  | [] => []
  | Effect.publish _ v :: rest => v :: published rest
  | _ :: rest => published rest

/-! ## The update loop of `fetchMeasurements` (lines 82-98) -/

/-- One iteration of the `for _, v := range measurements` loop: the new map and
the effects of the iteration. -/
def processOne (c : Cache) (v : Measurement) : Cache × List Effect :=
  match c.get v.Source with
  | none =>
    (c.set v.Source v,
      [Effect.printf ("No data for source '" ++ v.Source ++ "', creating key.\n")])
  | some measurement =>
    if v.Recorded.Equal measurement.Recorded || v.Recorded.Before measurement.Recorded then
      (c, [])
    else if v.Recorded.After measurement.Recorded then
      (c.set v.Source v,
        [Effect.printf ("New data for source '" ++ v.Source ++ "'\n"), Effect.publish topic v])
    else
      (c, [])

/-- The whole loop over a decoded batch, in the order of the batch. -/
def rangeLoop (c : Cache) : List Measurement → Cache × List Effect
  | [] => (c, [])
  | v :: rest =>
    let r := processOne c v
    let r2 := rangeLoop r.1 rest
    (r2.1, r.2 ++ r2.2)

/-! ## `fetchMeasurements` -/

/-- What the network gives to one call: `http.Get` fails, the response has no
body, reading the body fails, or the body is read. -/
inductive HttpResult where
  | getError (err : String)
  | nilBody
  | readError (err : String)
  | body (bytes : String)
deriving DecidableEq, Repr

/-- The outcome of a call: the returned `error` (`none` is `nil`), the map after
the call and the effects of the call. -/
structure FetchOutcome where
  err : Option String
  cache : Cache
  effects : List Effect
deriving DecidableEq, Repr

/-- The function `fetchMeasurements`.  `unmarshal` is `json.Unmarshal` into a
`[]Measurement`; `res` is what the network gives to this call. -/
def fetchMeasurements (unmarshal : String → Except String (List Measurement))
    (res : HttpResult) (c : Cache) : FetchOutcome :=
  match res with
  | HttpResult.getError err => ⟨some err, c, [Effect.httpGet measurementsURL]⟩
  | HttpResult.nilBody => ⟨some "nil body", c, [Effect.httpGet measurementsURL]⟩
  | HttpResult.readError err => ⟨some err, c, [Effect.httpGet measurementsURL]⟩
  | HttpResult.body bytes =>
    match unmarshal bytes with
    | Except.error err => ⟨some err, c, [Effect.httpGet measurementsURL]⟩
    | Except.ok measurements =>
      let r := rangeLoop c measurements
      ⟨none, r.1, [Effect.httpGet measurementsURL, Effect.lock] ++ r.2 ++ [Effect.unlock]⟩

/-- Successive poll cycles that each decoded a batch: the update loop run on
each batch in turn, on the map left by the previous one. -/
def processBatches (c : Cache) : List (List Measurement) → Cache × List Effect
  | [] => (c, [])
  | b :: rest =>
    let r := rangeLoop c b
    let r2 := processBatches r.1 rest
    (r2.1, r.2 ++ r2.2)

/-! ## The polling loop of `main` (lines 103-112) -/

/-- The two states of the poller. `Idle d` is the call `time.Sleep` of `d`
milliseconds. -/
inductive PollerState where
  | Fetching
  | Idle (delayMs : Nat)
deriving DecidableEq, Repr

/-- A configuration of the polling goroutine: its state, the map, and how many
calls of `fetchMeasurements` were made so far. -/
structure Poller where
  state : PollerState
  cache : Cache
  cycle : Nat
deriving DecidableEq, Repr

/-- One step of the loop `for { err := fetchMeasurements(); if err != nil { ...;
continue }; time.Sleep(time.Millisecond * 500) }`.  `net n` is what the network
gives to the `n`-th call. -/
def pollerStep (unmarshal : String → Except String (List Measurement))
    (net : Nat → HttpResult) (p : Poller) : Poller × List Effect :=
  match p.state with
  | PollerState.Idle _ => (⟨PollerState.Fetching, p.cache, p.cycle⟩, [])
  | PollerState.Fetching =>
    let r := fetchMeasurements unmarshal (net p.cycle) p.cache
    match r.err with
    | some err =>
      (⟨PollerState.Fetching, r.cache, p.cycle + 1⟩,
        r.effects ++ [Effect.printf ("Couldn't fetch measurements: " ++ err ++ "\n")])
    | none => (⟨PollerState.Idle 500, r.cache, p.cycle + 1⟩, r.effects)

/-! ## Observers used to state the properties -/

/-- The call did not get a decoded batch: `http.Get` failed, the body was nil,
reading it failed, or `json.Unmarshal` returned an error. -/
def cycleFailed (unmarshal : String → Except String (List Measurement)) : HttpResult → Bool
  | HttpResult.body bytes =>
    match unmarshal bytes with
    | Except.error _ => true
    | Except.ok _ => false
  | _ => true

/-- The effects of a trace that are performed while `rwMU` is held: those after
a `lock` and before the next `unlock`.  `held` says whether the lock is held
where the trace starts. -/
def whileLocked : Bool → List Effect → List Effect
  | _, [] => []
  | _, Effect.lock :: rest => whileLocked true rest
  | _, Effect.unlock :: rest => whileLocked false rest
  | held, x :: rest => if held then x :: whileLocked held rest else whileLocked held rest

/-- Whether `rwMU` is held where the trace ends. -/
def heldAfter : Bool → List Effect → Bool
  | held, [] => held
  | _, Effect.lock :: rest => heldAfter true rest
  | _, Effect.unlock :: rest => heldAfter false rest
  | held, _ :: rest => heldAfter held rest

/-! ## Concrete records used in the examples -/

/-- The instant `t1` of the examples. -/
def t1 : Time := ⟨1600000000, 0, "UTC"⟩

/-- A later instant `t2`. -/
def t2 : Time := ⟨1600000060, 0, "UTC"⟩

/-- Source `A` at `t1` with `pm2dot5 = 5.0` (bits `0x4014000000000000`). -/
def recA5 : Measurement := ⟨"pms7003", "A", 0, 0x4014000000000000, 0, 0, 0, t1⟩

/-- Source `A` at `t1` with `pm2dot5 = 9.0` (bits `0x4022000000000000`). -/
def recA9 : Measurement := ⟨"pms7003", "A", 0, 0x4022000000000000, 0, 0, 0, t1⟩

/-- Source `A` at `t2`. -/
def recA2 : Measurement := ⟨"pms7003", "A", 0, 0x4022000000000000, 0, 0, 0, t2⟩

/-- Source `B` at `t1`. -/
def recB : Measurement := ⟨"pms7003", "B", 0, 0, 0, 0, 0, t1⟩

/-- The map after the batch `[recA5]` from the empty map. -/
def cacheA : Cache := ⟨[("A", recA5)]⟩

/-- A decoder for the examples: every body decodes to the batch `[recA2]`. -/
def decodeA2 : String → Except String (List Measurement) :=
  fun _ => Except.ok [recA2]

/-- A network for the examples: every `http.Get` fails. -/
def netDown : Nat → HttpResult :=
  fun _ => HttpResult.getError "dial tcp: connection refused"

/-- A network for the examples: every `http.Get` gives a body. -/
def netUp : Nat → HttpResult :=
  fun _ => HttpResult.body "[...]"


/-! ## Order of instants -/

theorem Time.after_of_not_equal_or_before (t u : Time)
    (h : (t.Equal u || t.Before u) = false) : t.After u = true := by
  simp only [Time.Equal, Time.Before, Time.After, Bool.or_eq_false_iff, Bool.or_eq_true,
    Bool.and_eq_false_imp, Bool.and_eq_true, decide_eq_true_eq, decide_eq_false_iff_not,
    beq_iff_eq, beq_eq_false_iff_ne] at *
  omega

theorem Time.before_iff_after (t u : Time) : t.Before u = true ↔ u.After t = true := by
  simp only [Time.Before, Time.After, Bool.or_eq_true, Bool.and_eq_true, decide_eq_true_eq,
    beq_iff_eq]
  omega

theorem Time.le_iff_not_after (t u : Time) : Time.le t u ↔ t.After u = false := by
  simp only [Time.le, Time.Equal, Time.Before, Time.After, Bool.or_eq_false_iff, Bool.or_eq_true,
    Bool.and_eq_false_imp, Bool.and_eq_true, decide_eq_true_eq, decide_eq_false_iff_not,
    beq_iff_eq]
  omega

theorem Time.le_iff_equal_or_before (t u : Time) :
    Time.le t u ↔ (t.Equal u || t.Before u) = true := by
  simp only [Time.le, Bool.or_eq_true]
  exact Or.comm

theorem Time.le_refl (t : Time) : Time.le t t :=
  Or.inr (by simp [Time.Equal])

theorem Time.le_trans {t u w : Time} (h1 : Time.le t u) (h2 : Time.le u w) : Time.le t w := by
  simp only [Time.le, Time.Equal, Time.Before, Bool.or_eq_true, Bool.and_eq_true,
    decide_eq_true_eq, beq_iff_eq] at *
  omega

theorem Time.le_of_after {t u : Time} (h : t.After u = true) : Time.le u t := by
  simp only [Time.le, Time.Equal, Time.Before, Time.After, Bool.or_eq_true, Bool.and_eq_true,
    decide_eq_true_eq, beq_iff_eq] at *
  omega

theorem Time.after_of_after_of_le {t u w : Time} (h1 : t.After u = true) (h2 : Time.le w u) :
    t.After w = true := by
  simp only [Time.le, Time.Equal, Time.Before, Time.After, Bool.or_eq_true, Bool.and_eq_true,
    decide_eq_true_eq, beq_iff_eq] at *
  omega

/-! ## The map operations -/

theorem lookupEntry_assignEntry_same (k : String) (v : Measurement)
    (l : List (String × Measurement)) : lookupEntry k (assignEntry k v l) = some v := by
  induction l with
  | nil => simp [assignEntry, lookupEntry]
  | cons hd tl ih =>
    obtain ⟨k1, m⟩ := hd
    by_cases h : k1 = k
    · simp [assignEntry, lookupEntry, h]
    · simp [assignEntry, lookupEntry, h, ih]

theorem lookupEntry_assignEntry_other (k k2 : String) (v : Measurement)
    (l : List (String × Measurement)) (hne : k2 ≠ k) :
    lookupEntry k2 (assignEntry k v l) = lookupEntry k2 l := by
  induction l with
  | nil => simp [assignEntry, lookupEntry, Ne.symm hne]
  | cons hd tl ih =>
    obtain ⟨k1, m⟩ := hd
    by_cases h : k1 = k
    · subst h
      simp [assignEntry, lookupEntry, Ne.symm hne]
    · by_cases h2 : k1 = k2
      · subst h2
        simp [assignEntry, lookupEntry, h]
      · simp [assignEntry, lookupEntry, h, h2, ih]

theorem Cache.get_set_same (c : Cache) (k : String) (v : Measurement) :
    (c.set k v).get k = some v :=
  lookupEntry_assignEntry_same k v c.entries

theorem Cache.get_set_other (c : Cache) (k k2 : String) (v : Measurement) (hne : k2 ≠ k) :
    (c.set k v).get k2 = c.get k2 :=
  lookupEntry_assignEntry_other k k2 v c.entries hne

/-! ## One iteration of the loop, by case -/

theorem processOne_absent (c : Cache) (v : Measurement) (h : c.get v.Source = none) :
    processOne c v = (c.set v.Source v,
      [Effect.printf ("No data for source '" ++ v.Source ++ "', creating key.\n")]) := by
  simp [processOne, h]

theorem processOne_stale (c : Cache) (v e : Measurement) (h : c.get v.Source = some e)
    (hle : Time.le v.Recorded e.Recorded) : processOne c v = (c, []) := by
  have h2 := (Time.le_iff_equal_or_before _ _).1 hle
  simp [processOne, h, h2]

theorem processOne_newer (c : Cache) (v e : Measurement) (h : c.get v.Source = some e)
    (hgt : v.Recorded.After e.Recorded = true) :
    processOne c v = (c.set v.Source v,
      [Effect.printf ("New data for source '" ++ v.Source ++ "'\n"), Effect.publish topic v]) := by
  have h2 : (v.Recorded.Equal e.Recorded || v.Recorded.Before e.Recorded) = false := by
    cases hx : (v.Recorded.Equal e.Recorded || v.Recorded.Before e.Recorded)
    · rfl
    · have := (Time.le_iff_not_after _ _).1 ((Time.le_iff_equal_or_before _ _).2 hx)
      rw [hgt] at this
      exact absurd this (by decide)
  simp [processOne, h, h2, hgt]

/-- The three cases of an iteration: absent key, stale record, newer record. -/
theorem processOne_cases (c : Cache) (v : Measurement) :
    (c.get v.Source = none ∧ processOne c v = (c.set v.Source v,
        [Effect.printf ("No data for source '" ++ v.Source ++ "', creating key.\n")])) ∨
    (∃ e, c.get v.Source = some e ∧ Time.le v.Recorded e.Recorded ∧ processOne c v = (c, [])) ∨
    (∃ e, c.get v.Source = some e ∧ v.Recorded.After e.Recorded = true ∧
      processOne c v = (c.set v.Source v,
        [Effect.printf ("New data for source '" ++ v.Source ++ "'\n"),
          Effect.publish topic v])) := by
  cases h : c.get v.Source with
  | none => exact Or.inl ⟨rfl, processOne_absent c v h⟩
  | some e =>
    cases hgt : v.Recorded.After e.Recorded with
    | true => exact Or.inr (Or.inr ⟨e, rfl, hgt, processOne_newer c v e h hgt⟩)
    | false =>
      have hle := (Time.le_iff_not_after _ _).2 hgt
      exact Or.inr (Or.inl ⟨e, rfl, hle, processOne_stale c v e h hle⟩)

/-! ## Claims about one record -/

/-- C2: a record whose source is already in the cache with a stored `Recorded`
equal to or later than its own leaves the whole cache as it was and publishes
nothing. -/
theorem stale_record_changes_nothing (c : Cache) (m e : Measurement)
    (hget : c.get m.Source = some e) (hle : Time.le m.Recorded e.Recorded) :
    (processOne c m).1 = c ∧ published (processOne c m).2 = [] := by
  rw [processOne_stale c m e hget hle]
  exact ⟨rfl, rfl⟩

/-- C2, on the scenario of the specification: source `A` is stored at `t1` with
`pm2dot5 = 5.0`; the record of the same instant with `9.0` changes nothing. -/
theorem stale_record_changes_nothing_witness :
    cacheA.get recA9.Source = some recA5 ∧ Time.le recA9.Recorded recA5.Recorded ∧
    recA9 ≠ recA5 ∧
    (processOne cacheA recA9).1 = cacheA ∧ published (processOne cacheA recA9).2 = [] :=
  ⟨by decide, by decide, by decide,
    stale_record_changes_nothing cacheA recA9 recA5 (by decide) (by decide)⟩

/-- C3: a record whose source is not a key of the cache is stored under its
source, and every other key keeps what it had. -/
theorem unseen_source_is_inserted (c : Cache) (m : Measurement)
    (habsent : c.get m.Source = none) :
    (processOne c m).1.get m.Source = some m ∧
    ∀ k, k ≠ m.Source → (processOne c m).1.get k = c.get k := by
  rw [processOne_absent c m habsent]
  exact ⟨Cache.get_set_same c m.Source m, fun k hk => Cache.get_set_other c m.Source k m hk⟩

/-- C3 at the map holding source `A` and the record of source `B`. -/
theorem unseen_source_is_inserted_witness :
    cacheA.get recB.Source = none ∧
    (processOne cacheA recB).1.get recB.Source = some recB ∧
    ∀ k, k ≠ recB.Source → (processOne cacheA recB).1.get k = cacheA.get k :=
  ⟨by decide, unseen_source_is_inserted cacheA recB (by decide)⟩

/-- C4: a record whose source is in the cache with a strictly earlier stored
`Recorded` replaces that entry, leaves every other key alone, and is published
once, as the only publication of the iteration. -/
theorem newer_record_replaces_and_publishes (c : Cache) (m e : Measurement)
    (hget : c.get m.Source = some e) (hlt : e.Recorded.Before m.Recorded = true) :
    (processOne c m).1.get m.Source = some m ∧
    (∀ k, k ≠ m.Source → (processOne c m).1.get k = c.get k) ∧
    published (processOne c m).2 = [m] ∧
    (processOne c m).2.filter (fun x => x matches Effect.publish _ _) =
      [Effect.publish topic m] := by
  rw [processOne_newer c m e hget ((Time.before_iff_after _ _).1 hlt)]
  refine ⟨Cache.get_set_same c m.Source m, fun k hk => Cache.get_set_other c m.Source k m hk,
    rfl, rfl⟩

/-- C4 on the scenario of the specification: `A` stored at `t1`, then `A` at `t2`. -/
theorem newer_record_replaces_and_publishes_witness :
    cacheA.get recA2.Source = some recA5 ∧ recA5.Recorded.Before recA2.Recorded = true ∧
    (processOne cacheA recA2).1.get recA2.Source = some recA2 ∧
    (∀ k, k ≠ recA2.Source → (processOne cacheA recA2).1.get k = cacheA.get k) ∧
    published (processOne cacheA recA2).2 = [recA2] ∧
    (processOne cacheA recA2).2.filter (fun x => x matches Effect.publish _ _) =
      [Effect.publish topic recA2] :=
  ⟨by decide, by decide, newer_record_replaces_and_publishes cacheA recA2 recA5 (by decide)
    (by decide)⟩

/-! ## Keys of the map -/

theorem lookupEntry_eq_none_iff (k : String) (l : List (String × Measurement)) :
    lookupEntry k l = none ↔ k ∉ l.map Prod.fst := by
  induction l with
  | nil => simp [lookupEntry]
  | cons hd tl ih =>
    obtain ⟨k1, m⟩ := hd
    by_cases h : k1 = k
    · simp [lookupEntry, h]
    · simp [lookupEntry, h, ih, Ne.symm h]

theorem map_fst_assignEntry_of_mem (k : String) (v : Measurement)
    (l : List (String × Measurement)) (hmem : k ∈ l.map Prod.fst) :
    (assignEntry k v l).map Prod.fst = l.map Prod.fst := by
  induction l with
  | nil => simp at hmem
  | cons hd tl ih =>
    obtain ⟨k1, m⟩ := hd
    by_cases h : k1 = k
    · simp [assignEntry, h]
    · have hk : k ∈ tl.map Prod.fst := by
        simp only [List.map_cons, List.mem_cons] at hmem
        rcases hmem with h1 | h1
        · exact absurd h1.symm h
        · exact h1
      simp [assignEntry, h, ih hk]

theorem map_fst_assignEntry_of_not_mem (k : String) (v : Measurement)
    (l : List (String × Measurement)) (hmem : k ∉ l.map Prod.fst) :
    (assignEntry k v l).map Prod.fst = l.map Prod.fst ++ [k] := by
  induction l with
  | nil => simp [assignEntry]
  | cons hd tl ih =>
    obtain ⟨k1, m⟩ := hd
    simp only [List.map_cons, List.mem_cons, not_or] at hmem
    have h : ¬ k1 = k := fun h1 => hmem.1 h1.symm
    simp [assignEntry, h, ih hmem.2]

theorem Cache.get_eq_none_iff (c : Cache) (k : String) : c.get k = none ↔ k ∉ c.keys :=
  lookupEntry_eq_none_iff k c.entries

/-- The keys after one iteration: the same keys, or one new key at the end. -/
theorem processOne_keys (c : Cache) (v : Measurement) :
    (v.Source ∈ c.keys ∧ (processOne c v).1.keys = c.keys) ∨
    (v.Source ∉ c.keys ∧ (processOne c v).1.keys = c.keys ++ [v.Source]) := by
  rcases processOne_cases c v with ⟨hget, heq⟩ | ⟨e, hget, _, heq⟩ | ⟨e, hget, _, heq⟩
  · have hk := (Cache.get_eq_none_iff c v.Source).1 hget
    refine Or.inr ⟨hk, ?_⟩
    rw [heq]
    exact map_fst_assignEntry_of_not_mem v.Source v c.entries hk
  · have hk : v.Source ∈ c.keys := by
      by_contra hn
      rw [(Cache.get_eq_none_iff c v.Source).2 hn] at hget
      exact Option.noConfusion hget
    refine Or.inl ⟨hk, ?_⟩
    rw [heq]
  · have hk : v.Source ∈ c.keys := by
      by_contra hn
      rw [(Cache.get_eq_none_iff c v.Source).2 hn] at hget
      exact Option.noConfusion hget
    refine Or.inl ⟨hk, ?_⟩
    rw [heq]
    exact map_fst_assignEntry_of_mem v.Source v c.entries hk

theorem processOne_mem_keys (c : Cache) (v : Measurement) (k : String) :
    k ∈ (processOne c v).1.keys ↔ k ∈ c.keys ∨ k = v.Source := by
  rcases processOne_keys c v with ⟨hk, heq⟩ | ⟨_, heq⟩
  · rw [heq]
    constructor
    · exact fun h => Or.inl h
    · rintro (h | h)
      · exact h
      · exact h ▸ hk
  · rw [heq]
    simp

theorem processOne_wf (c : Cache) (v : Measurement) (hwf : c.WF) : (processOne c v).1.WF := by
  unfold Cache.WF at *
  rcases processOne_keys c v with ⟨_, heq⟩ | ⟨hk, heq⟩
  · rw [heq]
    exact hwf
  · rw [heq]
    refine List.nodup_append.2 ⟨hwf, List.nodup_singleton _, ?_⟩
    intro a ha hb
    rw [List.mem_singleton] at hb
    exact hk (hb ▸ ha)

theorem rangeLoop_mem_keys (ms : List Measurement) (c : Cache) (k : String) :
    k ∈ (rangeLoop c ms).1.keys ↔ k ∈ c.keys ∨ k ∈ ms.map (fun m => m.Source) := by
  induction ms generalizing c with
  | nil => simp [rangeLoop]
  | cons v rest ih =>
    simp only [rangeLoop, List.map_cons, List.mem_cons]
    rw [ih, processOne_mem_keys]
    exact or_assoc

theorem rangeLoop_wf (ms : List Measurement) (c : Cache) (hwf : c.WF) :
    (rangeLoop c ms).1.WF := by
  induction ms generalizing c with
  | nil => exact hwf
  | cons v rest ih => exact ih _ (processOne_wf c v hwf)

/-! ## The loop over concatenated batches -/

theorem published_append (xs ys : List Effect) :
    published (xs ++ ys) = published xs ++ published ys := by
  induction xs with
  | nil => rfl
  | cons x tl ih => cases x <;> simp [published, ih]

theorem rangeLoop_append (xs ys : List Measurement) (c : Cache) :
    rangeLoop c (xs ++ ys) =
      ((rangeLoop (rangeLoop c xs).1 ys).1, (rangeLoop c xs).2 ++ (rangeLoop (rangeLoop c xs).1 ys).2) := by
  induction xs generalizing c with
  | nil => simp [rangeLoop]
  | cons v rest ih => simp [rangeLoop, ih, List.append_assoc]

/-- Running the loop batch after batch is running it once on the batches laid
end to end. -/
theorem processBatches_eq_rangeLoop (bs : List (List Measurement)) (c : Cache) :
    processBatches c bs = rangeLoop c bs.flatten := by
  induction bs generalizing c with
  | nil => rfl
  | cons b rest ih =>
    simp only [processBatches, List.flatten_cons, rangeLoop_append, ih]

/-! ## Freshness of the stored entry -/

/-- One iteration never lowers the stored timestamp of a key. -/
theorem processOne_mono (c : Cache) (v : Measurement) (k : String) (e : Measurement)
    (hget : c.get k = some e) :
    ∃ e2, (processOne c v).1.get k = some e2 ∧ Time.le e.Recorded e2.Recorded := by
  rcases processOne_cases c v with ⟨habs, heq⟩ | ⟨e1, _, _, heq⟩ | ⟨e1, hget1, hgt, heq⟩
  · rw [heq]
    by_cases hk : k = v.Source
    · rw [hk, habs] at hget
      exact Option.noConfusion hget
    · exact ⟨e, by rw [Cache.get_set_other c v.Source k v hk]; exact hget, Time.le_refl _⟩
  · rw [heq]
    exact ⟨e, hget, Time.le_refl _⟩
  · rw [heq]
    by_cases hk : k = v.Source
    · subst hk
      rw [hget1] at hget
      cases hget
      exact ⟨v, Cache.get_set_same c v.Source v, Time.le_of_after hgt⟩
    · exact ⟨e, by rw [Cache.get_set_other c v.Source k v hk]; exact hget, Time.le_refl _⟩

/-- After its own iteration a record is dominated by the entry of its source. -/
theorem processOne_dominates (c : Cache) (v : Measurement) :
    ∃ e, (processOne c v).1.get v.Source = some e ∧ Time.le v.Recorded e.Recorded := by
  rcases processOne_cases c v with ⟨_, heq⟩ | ⟨e1, hget1, hle, heq⟩ | ⟨e1, _, _, heq⟩
  · rw [heq]
    exact ⟨v, Cache.get_set_same c v.Source v, Time.le_refl _⟩
  · rw [heq]
    exact ⟨e1, hget1, hle⟩
  · rw [heq]
    exact ⟨v, Cache.get_set_same c v.Source v, Time.le_refl _⟩

theorem rangeLoop_mono (ms : List Measurement) (c : Cache) (k : String) (e : Measurement)
    (hget : c.get k = some e) :
    ∃ e2, (rangeLoop c ms).1.get k = some e2 ∧ Time.le e.Recorded e2.Recorded := by
  induction ms generalizing c e with
  | nil => exact ⟨e, hget, Time.le_refl _⟩
  | cons v rest ih =>
    obtain ⟨e1, h1, hle1⟩ := processOne_mono c v k e hget
    obtain ⟨e2, h2, hle2⟩ := ih (processOne c v).1 e1 h1
    exact ⟨e2, h2, Time.le_trans hle1 hle2⟩

theorem rangeLoop_dominates (ms : List Measurement) (c : Cache) (m : Measurement)
    (hm : m ∈ ms) :
    ∃ e, (rangeLoop c ms).1.get m.Source = some e ∧ Time.le m.Recorded e.Recorded := by
  induction ms generalizing c with
  | nil => simp at hm
  | cons v rest ih =>
    rcases List.mem_cons.1 hm with h | h
    · subst h
      obtain ⟨e1, h1, hle1⟩ := processOne_dominates c m
      obtain ⟨e2, h2, hle2⟩ := rangeLoop_mono rest (processOne c m).1 m.Source e1 h1
      exact ⟨e2, h2, Time.le_trans hle1 hle2⟩
    · exact ih (processOne c v).1 h

/-- C1: from the empty cache, after any sequence of decoded batches, the entry
stored under a key is at least as recent as every record offered for that key;
and one iteration of the loop never lowers the stored timestamp of a key. -/
theorem stored_timestamp_dominates_offered (bs : List (List Measurement)) :
    (∀ k e, (processBatches Cache.empty bs).1.get k = some e →
      ∀ m, m ∈ bs.flatten → m.Source = k → Time.le m.Recorded e.Recorded) ∧
    (∀ m, m ∈ bs.flatten → ∃ e, (processBatches Cache.empty bs).1.get m.Source = some e) ∧
    (∀ (c : Cache) (v : Measurement) (k : String) (e : Measurement), c.get k = some e →
      ∃ e2, (processOne c v).1.get k = some e2 ∧ Time.le e.Recorded e2.Recorded) := by
  rw [processBatches_eq_rangeLoop]
  refine ⟨?_, ?_, processOne_mono⟩
  · intro k e hget m hm hk
    obtain ⟨e2, h2, hle⟩ := rangeLoop_dominates bs.flatten Cache.empty m hm
    rw [hk, hget] at h2
    cases h2
    exact hle
  · intro m hm
    obtain ⟨e2, h2, _⟩ := rangeLoop_dominates bs.flatten Cache.empty m hm
    exact ⟨e2, h2⟩

/-- C1 on the batches `[recA5]`, `[recA2, recA9]`: source `A` ends at `t2`, which
is not earlier than the `t1` of `recA9`. -/
theorem stored_timestamp_dominates_offered_witness :
    (processBatches Cache.empty [[recA5], [recA2, recA9]]).1.get "A" = some recA2 ∧
    Time.le recA9.Recorded recA2.Recorded :=
  ⟨by decide, (stored_timestamp_dominates_offered [[recA5], [recA2, recA9]]).1 "A" recA2
    (by decide) recA9 (by decide) (by decide)⟩

/-! ## The set of keys -/

theorem Cache.len_eq_card (c : Cache) (hwf : c.WF) : c.len = c.keys.toFinset.card := by
  rw [List.toFinset_card_of_nodup hwf]
  simp [Cache.len, Cache.keys]

/-- C8: the keys after a batch are the keys before together with the sources of
the batch, so no key is removed; from the empty cache the number of entries is
the number of distinct sources offered, each key being held once. -/
theorem keys_after_batch (c : Cache) (batch : List Measurement)
    (bs : List (List Measurement)) :
    (rangeLoop c batch).1.keys.toFinset =
      c.keys.toFinset ∪ (batch.map (fun m => m.Source)).toFinset ∧
    (∀ k, k ∈ c.keys → k ∈ (rangeLoop c batch).1.keys) ∧
    (processBatches Cache.empty bs).1.WF ∧
    (processBatches Cache.empty bs).1.len =
      (bs.flatten.map (fun m => m.Source)).toFinset.card ∧
    (rangeLoop (rangeLoop Cache.empty [recA5]).1 [recB]).1.len = 2 := by
  have hwf0 : Cache.empty.WF := List.nodup_nil
  refine ⟨?_, ?_, ?_, ?_, by decide⟩
  · ext k
    simp only [List.mem_toFinset, Finset.mem_union]
    exact rangeLoop_mem_keys batch c k
  · exact fun k hk => (rangeLoop_mem_keys batch c k).2 (Or.inl hk)
  · rw [processBatches_eq_rangeLoop]
    exact rangeLoop_wf _ _ hwf0
  · rw [processBatches_eq_rangeLoop, Cache.len_eq_card _ (rangeLoop_wf _ _ hwf0)]
    congr 1
    ext k
    simp only [List.mem_toFinset]
    rw [rangeLoop_mem_keys]
    simp [Cache.empty, Cache.keys]

/-! ## What is published -/

theorem published_processOne (c : Cache) (v : Measurement) :
    (published (processOne c v).2 = [] ) ∨
    (published (processOne c v).2 = [v] ∧ (processOne c v).1.get v.Source = some v ∧
      ∃ e, c.get v.Source = some e ∧ v.Recorded.After e.Recorded = true) := by
  rcases processOne_cases c v with ⟨_, heq⟩ | ⟨e1, _, _, heq⟩ | ⟨e1, hget1, hgt, heq⟩
  · rw [heq]; exact Or.inl rfl
  · rw [heq]; exact Or.inl rfl
  · rw [heq]; exact Or.inr ⟨rfl, Cache.get_set_same c v.Source v, e1, hget1, hgt⟩

/-- Every record published by the loop is strictly newer than what the map held
for its source when the loop started. -/
theorem published_after_stored (ms : List Measurement) (c : Cache) (k : String)
    (e : Measurement) (hget : c.get k = some e) (p : Measurement)
    (hp : p ∈ published (rangeLoop c ms).2) (hk : p.Source = k) :
    p.Recorded.After e.Recorded = true := by
  induction ms generalizing c e with
  | nil => simp [rangeLoop, published] at hp
  | cons v rest ih =>
    simp only [rangeLoop, published_append, List.mem_append] at hp
    rcases hp with hp | hp
    · rcases published_processOne c v with h0 | ⟨h1, _, e1, hget1, hgt⟩
      · rw [h0] at hp
        simp at hp
      · rw [h1, List.mem_singleton] at hp
        subst hp
        rw [hk, hget] at hget1
        cases hget1
        exact hgt
    · obtain ⟨e1, h1, hle1⟩ := processOne_mono c v k e hget
      exact Time.after_of_after_of_le (ih (processOne c v).1 e1 h1 hp) hle1

theorem published_pairwise (ms : List Measurement) (c : Cache) :
    (published (rangeLoop c ms).2).Pairwise
      (fun a b => a.Source = b.Source → b.Recorded.After a.Recorded = true) := by
  induction ms generalizing c with
  | nil => simp [rangeLoop, published]
  | cons v rest ih =>
    simp only [rangeLoop, published_append]
    refine List.pairwise_append.2 ⟨?_, ih _, ?_⟩
    · rcases published_processOne c v with h0 | ⟨h1, _⟩
      · rw [h0]; exact List.Pairwise.nil
      · rw [h1]; exact List.pairwise_singleton _ _
    · intro a ha b hb hab
      rcases published_processOne c v with h0 | ⟨h1, hstored, _⟩
      · rw [h0] at ha
        simp at ha
      · rw [h1, List.mem_singleton] at ha
        subst ha
        exact published_after_stored rest (processOne c a).1 a.Source a hstored b hb hab.symm

theorem published_sublist (ms : List Measurement) (c : Cache) :
    (published (rangeLoop c ms).2).Sublist ms := by
  induction ms generalizing c with
  | nil => simp [rangeLoop, published]
  | cons v rest ih =>
    simp only [rangeLoop, published_append]
    rcases published_processOne c v with h0 | ⟨h1, _⟩
    · rw [h0]
      exact List.Sublist.cons v (ih _)
    · rw [h1]
      exact List.Sublist.cons₂ v (ih _)

theorem last_published_is_stored (ms : List Measurement) (c : Cache) (k : String)
    (m : Measurement)
    (hlast : ((published (rangeLoop c ms).2).filter (fun p => p.Source = k)).getLast? = some m) :
    (rangeLoop c ms).1.get k = some m := by
  induction ms using List.reverseRecOn generalizing m with
  | nil => simp [rangeLoop, published] at hlast
  | append_singleton xs v ih =>
    rw [rangeLoop_append] at hlast ⊢
    simp only [rangeLoop, published_append, List.append_nil, List.filter_append] at hlast ⊢
    rcases processOne_cases (rangeLoop c xs).1 v with
      ⟨habs, heq⟩ | ⟨e1, _, _, heq⟩ | ⟨e1, hget1, hgt, heq⟩
    · rw [heq] at hlast ⊢
      simp only [published, List.filter_nil, List.append_nil] at hlast
      have h := ih m hlast
      by_cases hk : k = v.Source
      · rw [hk, habs] at h
        exact Option.noConfusion h
      · rw [Cache.get_set_other _ v.Source k v hk]
        exact h
    · rw [heq] at hlast ⊢
      simp only [published, List.filter_nil, List.append_nil] at hlast
      exact ih m hlast
    · rw [heq] at hlast ⊢
      by_cases hk : k = v.Source
      · subst hk
        simp only [published, List.filter_cons, decide_True, if_true, List.filter_nil,
          List.getLast?_concat] at hlast
        cases hlast
        exact Cache.get_set_same _ _ _
      · have hne : ¬ v.Source = k := fun h => hk h.symm
        simp only [published, List.filter_cons, hne, decide_False, List.filter_nil,
          List.append_nil] at hlast
        rw [Cache.get_set_other _ v.Source k v hk]
        exact ih m (by simpa using hlast)

/-- C10: from the empty cache, over any sequence of batches and for every source
`k`, the records published for `k` have strictly increasing `Recorded` in publish
order, follow the order in which the batches offered them, and the last one of
them is the entry stored under `k` in the final cache. -/
theorem published_per_source_increasing (bs : List (List Measurement)) (k : String) :
    ((published (processBatches Cache.empty bs).2).filter (fun p => p.Source = k)).Pairwise
      (fun a b => b.Recorded.After a.Recorded = true) ∧
    ((published (processBatches Cache.empty bs).2).filter (fun p => p.Source = k)).Sublist
      (bs.flatten.filter (fun p => p.Source = k)) ∧
    (∀ m, ((published (processBatches Cache.empty bs).2).filter
        (fun p => p.Source = k)).getLast? = some m →
      (processBatches Cache.empty bs).1.get k = some m) := by
  rw [processBatches_eq_rangeLoop]
  refine ⟨?_, (published_sublist _ _).filter _, fun m hm => last_published_is_stored _ _ k m hm⟩
  have h := (published_pairwise bs.flatten Cache.empty).filter (fun p => decide (p.Source = k))
  refine List.Pairwise.imp_of_mem ?_ h
  intro a b ha hb hab
  have ha2 := (List.mem_filter.1 ha).2
  have hb2 := (List.mem_filter.1 hb).2
  simp only [decide_eq_true_eq] at ha2 hb2
  exact hab (ha2.trans hb2.symm)

/-- C10 on the batches `[recA5, recB]`, `[recA9, recA2]`: only `recA2` is
published for `A`, and it is the entry stored under `A`. -/
theorem published_per_source_increasing_witness :
    (published (processBatches Cache.empty [[recA5, recB], [recA9, recA2]]).2).filter
      (fun p => p.Source = "A") = [recA2] ∧
    (processBatches Cache.empty [[recA5, recB], [recA9, recA2]]).1.get "A" = some recA2 :=
  ⟨by decide, (published_per_source_increasing [[recA5, recB], [recA9, recA2]] "A").2.2 recA2
    (by decide)⟩

/-! ## First sighting and the bus -/

/-- C5, as stated, fails on the first sighting of a source: the batch `[recA5]`
on the empty cache stores the record under `A`, so the cache changed, and
publishes nothing. -/
theorem first_sighting_not_published :
    Cache.empty.get recA5.Source = none ∧
    (rangeLoop Cache.empty [recA5]).1.get recA5.Source = some recA5 ∧
    (rangeLoop Cache.empty [recA5]).1 ≠ Cache.empty ∧
    published (rangeLoop Cache.empty [recA5]).2 = [] := by
  decide

/-- C5, amended: a record is published exactly when its source is in the cache
with a strictly earlier stored `Recorded`; a record whose source is absent is
stored and not published. -/
theorem published_iff_strictly_newer (c : Cache) (m : Measurement) :
    (m ∈ published (processOne c m).2 ↔
      ∃ e, c.get m.Source = some e ∧ m.Recorded.After e.Recorded = true) ∧
    ((∃ e, c.get m.Source = some e ∧ m.Recorded.After e.Recorded = true) →
      published (processOne c m).2 = [m] ∧ (processOne c m).1.get m.Source = some m) ∧
    (c.get m.Source = none →
      (processOne c m).1.get m.Source = some m ∧ published (processOne c m).2 = []) := by
  refine ⟨⟨?_, ?_⟩, ?_, ?_⟩
  · intro hm
    rcases published_processOne c m with h0 | ⟨_, _, hex⟩
    · rw [h0] at hm
      simp at hm
    · exact hex
  · rintro ⟨e, hget, hgt⟩
    rw [processOne_newer c m e hget hgt]
    simp [published]
  · rintro ⟨e, hget, hgt⟩
    rw [processOne_newer c m e hget hgt]
    exact ⟨rfl, Cache.get_set_same c m.Source m⟩
  · intro habs
    rw [processOne_absent c m habs]
    exact ⟨Cache.get_set_same c m.Source m, rfl⟩

/-- C5, amended, with `A` stored at `t1` and the record of `A` at `t2`. -/
theorem published_iff_strictly_newer_witness :
    published (processOne cacheA recA2).2 = [recA2] ∧
    (processOne cacheA recA2).1.get recA2.Source = some recA2 :=
  (published_iff_strictly_newer cacheA recA2).2.1 ⟨recA5, by decide, by decide⟩

/-! ## Failed cycles -/

/-- C6: when the fetch or the decoding of a cycle fails, `fetchMeasurements`
returns an error, the cache is what it was and nothing is published; it returns
`nil` only when the body was read and the whole batch decoded. -/
theorem failed_cycle_changes_nothing (unmarshal : String → Except String (List Measurement))
    (res : HttpResult) (c : Cache) :
    (cycleFailed unmarshal res = true →
      (fetchMeasurements unmarshal res c).err ≠ none ∧
      (fetchMeasurements unmarshal res c).cache = c ∧
      published (fetchMeasurements unmarshal res c).effects = []) ∧
    ((fetchMeasurements unmarshal res c).err = none →
      ∃ bytes ms, res = HttpResult.body bytes ∧ unmarshal bytes = Except.ok ms ∧
        (fetchMeasurements unmarshal res c).cache = (rangeLoop c ms).1) := by
  cases res with
  | getError err => simp [fetchMeasurements, cycleFailed, published]
  | nilBody => simp [fetchMeasurements, cycleFailed, published]
  | readError err => simp [fetchMeasurements, cycleFailed, published]
  | body bytes =>
    cases h : unmarshal bytes with
    | error err => simp [fetchMeasurements, cycleFailed, published, h]
    | ok ms => simp [fetchMeasurements, cycleFailed, h]

/-- C6 with the network down and `A` stored. -/
theorem failed_cycle_changes_nothing_witness :
    (fetchMeasurements decodeA2 (netDown 0) cacheA).err ≠ none ∧
    (fetchMeasurements decodeA2 (netDown 0) cacheA).cache = cacheA ∧
    published (fetchMeasurements decodeA2 (netDown 0) cacheA).effects = [] :=
  (failed_cycle_changes_nothing decodeA2 (netDown 0) cacheA).1 (by decide)

/-! ## The polling loop -/

/-- C7, as stated, fails: with the network down, the call of `fetchMeasurements`
returns an error and the poller goes from `Fetching` straight to `Fetching`. -/
theorem failed_fetch_retries_without_delay :
    (fetchMeasurements decodeA2 (netDown 0) Cache.empty).err ≠ none ∧
    (pollerStep decodeA2 netDown ⟨PollerState.Fetching, Cache.empty, 0⟩).1.state =
      PollerState.Fetching ∧
    (pollerStep decodeA2 netDown ⟨PollerState.Fetching, Cache.empty, 0⟩).1.state ≠
      PollerState.Idle 500 := by
  decide

/-- A call that reads a body which decodes returns `nil`, with the map left by
the loop and the trace `httpGet, lock, loop effects, unlock`. -/
theorem fetchMeasurements_decoded (unmarshal : String → Except String (List Measurement))
    (res : HttpResult) (c : Cache) (bytes : String) (ms : List Measurement)
    (hres : res = HttpResult.body bytes) (hdec : unmarshal bytes = Except.ok ms) :
    fetchMeasurements unmarshal res c =
      ⟨none, (rangeLoop c ms).1,
        [Effect.httpGet measurementsURL, Effect.lock] ++ (rangeLoop c ms).2 ++ [Effect.unlock]⟩ := by
  subst hres
  simp [fetchMeasurements, hdec]

/-- A call whose fetch or decoding fails returns an error, with the map as it
was and the HTTP fetch as its only effect. -/
theorem fetchMeasurements_failed (unmarshal : String → Except String (List Measurement))
    (res : HttpResult) (c : Cache) (hfail : cycleFailed unmarshal res = true) :
    ∃ err, fetchMeasurements unmarshal res c = ⟨some err, c, [Effect.httpGet measurementsURL]⟩ := by
  cases res with
  | getError err => exact ⟨err, rfl⟩
  | nilBody => exact ⟨"nil body", rfl⟩
  | readError err => exact ⟨err, rfl⟩
  | body bytes =>
    cases h : unmarshal bytes with
    | error err => exact ⟨err, by simp [fetchMeasurements, h]⟩
    | ok ms => simp [cycleFailed, h] at hfail

/-- A cycle that did not fail read a body that decodes. -/
theorem cycleFailed_eq_false (unmarshal : String → Except String (List Measurement))
    (res : HttpResult) (h : cycleFailed unmarshal res = false) :
    ∃ bytes ms, res = HttpResult.body bytes ∧ unmarshal bytes = Except.ok ms := by
  cases res with
  | getError err => simp [cycleFailed] at h
  | nilBody => simp [cycleFailed] at h
  | readError err => simp [cycleFailed] at h
  | body bytes =>
    cases hu : unmarshal bytes with
    | error err => simp [cycleFailed, hu] at h
    | ok ms => exact ⟨bytes, ms, rfl, hu⟩

/-- C7, amended: a cycle that read and decoded its batch returns `nil` and is
followed by `Idle 500`, from which the next step is the next fetch; a cycle whose
fetch or decoding failed returns an error, logs it, and goes from `Fetching` to
`Fetching` with the cache as it was and no `Idle` in between. -/
theorem poller_delay_after_success_only
    (unmarshal : String → Except String (List Measurement)) (net : Nat → HttpResult)
    (c : Cache) (n : Nat) :
    (∀ bytes ms, net n = HttpResult.body bytes → unmarshal bytes = Except.ok ms →
      (fetchMeasurements unmarshal (net n) c).err = none ∧
      pollerStep unmarshal net ⟨PollerState.Fetching, c, n⟩ =
        (⟨PollerState.Idle 500, (rangeLoop c ms).1, n + 1⟩,
          [Effect.httpGet measurementsURL, Effect.lock] ++ (rangeLoop c ms).2 ++
            [Effect.unlock])) ∧
    (cycleFailed unmarshal (net n) = true →
      ∃ err, (fetchMeasurements unmarshal (net n) c).err = some err ∧
        pollerStep unmarshal net ⟨PollerState.Fetching, c, n⟩ =
          (⟨PollerState.Fetching, c, n + 1⟩,
            [Effect.httpGet measurementsURL,
              Effect.printf ("Couldn't fetch measurements: " ++ err ++ "\n")])) ∧
    ((fetchMeasurements unmarshal (net n) c).err = none ↔
      cycleFailed unmarshal (net n) = false) ∧
    ((fetchMeasurements unmarshal (net n) c).err = none →
      (pollerStep unmarshal net ⟨PollerState.Fetching, c, n⟩).1.state = PollerState.Idle 500) ∧
    ((fetchMeasurements unmarshal (net n) c).err ≠ none →
      (pollerStep unmarshal net ⟨PollerState.Fetching, c, n⟩).1 =
        ⟨PollerState.Fetching, c, n + 1⟩) ∧
    (∀ d, (pollerStep unmarshal net ⟨PollerState.Idle d, c, n⟩) =
      (⟨PollerState.Fetching, c, n⟩, [])) := by
  have hok : ∀ bytes ms, net n = HttpResult.body bytes → unmarshal bytes = Except.ok ms →
      (fetchMeasurements unmarshal (net n) c).err = none ∧
      pollerStep unmarshal net ⟨PollerState.Fetching, c, n⟩ =
        (⟨PollerState.Idle 500, (rangeLoop c ms).1, n + 1⟩,
          [Effect.httpGet measurementsURL, Effect.lock] ++ (rangeLoop c ms).2 ++
            [Effect.unlock]) := by
    intro bytes ms hres hdec
    have h := fetchMeasurements_decoded unmarshal (net n) c bytes ms hres hdec
    refine ⟨by rw [h], ?_⟩
    simp only [pollerStep, h]
  have hfail : cycleFailed unmarshal (net n) = true →
      ∃ err, (fetchMeasurements unmarshal (net n) c).err = some err ∧
        pollerStep unmarshal net ⟨PollerState.Fetching, c, n⟩ =
          (⟨PollerState.Fetching, c, n + 1⟩,
            [Effect.httpGet measurementsURL,
              Effect.printf ("Couldn't fetch measurements: " ++ err ++ "\n")]) := by
    intro hf
    obtain ⟨err, h⟩ := fetchMeasurements_failed unmarshal (net n) c hf
    refine ⟨err, by rw [h], ?_⟩
    simp only [pollerStep, h, List.singleton_append]
  have hiff : (fetchMeasurements unmarshal (net n) c).err = none ↔
      cycleFailed unmarshal (net n) = false := by
    constructor
    · intro h
      cases hf : cycleFailed unmarshal (net n) with
      | false => rfl
      | true =>
        obtain ⟨err, h1, _⟩ := hfail hf
        rw [h1] at h
        exact Option.noConfusion h
    · intro hf
      obtain ⟨bytes, ms, hres, hdec⟩ := cycleFailed_eq_false unmarshal (net n) hf
      exact (hok bytes ms hres hdec).1
  refine ⟨hok, hfail, hiff, ?_, ?_, fun d => rfl⟩
  · intro h
    obtain ⟨bytes, ms, hres, hdec⟩ := cycleFailed_eq_false unmarshal (net n) (hiff.1 h)
    rw [(hok bytes ms hres hdec).2]
  · intro h
    cases hf : cycleFailed unmarshal (net n) with
    | false => exact absurd (hiff.2 hf) h
    | true =>
      obtain ⟨err, _, h2⟩ := hfail hf
      rw [h2]

/-- C7, amended, on a cycle that decodes its batch: the step ends in `Idle 500`
with the map and the trace of the call. -/
theorem poller_delay_after_success_only_witness :
    pollerStep decodeA2 netUp ⟨PollerState.Fetching, cacheA, 0⟩ =
      (⟨PollerState.Idle 500, (rangeLoop cacheA [recA2]).1, 0 + 1⟩,
        [Effect.httpGet measurementsURL, Effect.lock] ++ (rangeLoop cacheA [recA2]).2 ++
          [Effect.unlock]) :=
  ((poller_delay_after_success_only decodeA2 netUp cacheA 0).1 "[...]" [recA2] rfl rfl).2

/-! ## The lock and the bus -/

/-- The effects of the loop are log lines and publications. -/
theorem rangeLoop_effects (ms : List Measurement) (c : Cache) :
    ∀ x ∈ (rangeLoop c ms).2, (∃ line, x = Effect.printf line) ∨
      (∃ ch v, x = Effect.publish ch v) := by
  induction ms generalizing c with
  | nil => simp [rangeLoop]
  | cons v rest ih =>
    intro x hx
    simp only [rangeLoop, List.mem_append] at hx
    rcases hx with hx | hx
    · rcases processOne_cases c v with ⟨_, heq⟩ | ⟨e1, _, _, heq⟩ | ⟨e1, _, _, heq⟩
      · rw [heq] at hx
        simp only [List.mem_singleton] at hx
        exact Or.inl ⟨_, hx⟩
      · rw [heq] at hx
        simp at hx
      · rw [heq] at hx
        simp only [List.mem_cons, List.mem_singleton, List.not_mem_nil, or_false] at hx
        rcases hx with hx | hx
        · exact Or.inl ⟨_, hx⟩
        · exact Or.inr ⟨_, _, hx⟩
    · exact ih _ x hx

theorem whileLocked_true_append (xs ys : List Effect)
    (hxs : ∀ x ∈ xs, (∃ line, x = Effect.printf line) ∨ (∃ ch v, x = Effect.publish ch v)) :
    whileLocked true (xs ++ ys) = xs ++ whileLocked true ys ∧
    heldAfter true (xs ++ ys) = heldAfter true ys := by
  induction xs with
  | nil => exact ⟨rfl, rfl⟩
  | cons x tl ih =>
    have htl := ih (fun y hy => hxs y (List.mem_cons_of_mem _ hy))
    rcases hxs x (List.mem_cons_self _ _) with ⟨line, rfl⟩ | ⟨ch, v, rfl⟩
    · simp [whileLocked, heldAfter, htl.1, htl.2]
    · simp [whileLocked, heldAfter, htl.1, htl.2]

/-- C9, as stated, fails: with `A` stored at `t1` and the batch `[recA2]`, the
record is published between the `lock` and the `unlock` of the call. -/
theorem publish_while_locked :
    (fetchMeasurements decodeA2 (netUp 0) cacheA).effects =
      [Effect.httpGet measurementsURL, Effect.lock,
        Effect.printf "New data for source 'A'\n", Effect.publish topic recA2,
        Effect.unlock] ∧
    published (whileLocked false
      (fetchMeasurements decodeA2 (netUp 0) cacheA).effects) = [recA2] := by
  decide

/-- C9, amended: a call of `fetchMeasurements` that decoded its batch has the
trace `httpGet, lock, loop effects, unlock`, the loop's effects being log lines
and publications only: the HTTP fetch is made before `rwMU` is taken, the lock
is taken once after the decoding and released once when the call returns, and
every effect of the loop, each publication among them, is made while it is held.
A call that failed makes the HTTP fetch only and never takes the lock. -/
theorem publishes_are_made_under_the_lock
    (unmarshal : String → Except String (List Measurement)) (res : HttpResult) (c : Cache) :
    (∀ bytes ms, res = HttpResult.body bytes → unmarshal bytes = Except.ok ms →
      (fetchMeasurements unmarshal res c).effects =
        [Effect.httpGet measurementsURL, Effect.lock] ++ (rangeLoop c ms).2 ++
          [Effect.unlock] ∧
      whileLocked false (fetchMeasurements unmarshal res c).effects = (rangeLoop c ms).2 ∧
      (∀ x ∈ (rangeLoop c ms).2, (∃ line, x = Effect.printf line) ∨
        (∃ ch v, x = Effect.publish ch v)) ∧
      (fetchMeasurements unmarshal res c).effects.count Effect.lock = 1 ∧
      (fetchMeasurements unmarshal res c).effects.count Effect.unlock = 1) ∧
    (cycleFailed unmarshal res = true →
      (fetchMeasurements unmarshal res c).effects = [Effect.httpGet measurementsURL]) ∧
    published (whileLocked false (fetchMeasurements unmarshal res c).effects) =
      published (fetchMeasurements unmarshal res c).effects ∧
    (∀ url, Effect.httpGet url ∉
      whileLocked false (fetchMeasurements unmarshal res c).effects) ∧
    heldAfter false (fetchMeasurements unmarshal res c).effects = false := by
  have key : ∀ ms, whileLocked false
      ([Effect.httpGet measurementsURL, Effect.lock] ++ (rangeLoop c ms).2 ++ [Effect.unlock]) =
        (rangeLoop c ms).2 ∧
      heldAfter false
        ([Effect.httpGet measurementsURL, Effect.lock] ++ (rangeLoop c ms).2 ++ [Effect.unlock]) =
          false := by
    intro ms
    have h := whileLocked_true_append (rangeLoop c ms).2 [Effect.unlock] (rangeLoop_effects ms c)
    constructor
    · show whileLocked true ((rangeLoop c ms).2 ++ [Effect.unlock]) = (rangeLoop c ms).2
      rw [h.1]
      simp [whileLocked]
    · show heldAfter true ((rangeLoop c ms).2 ++ [Effect.unlock]) = false
      rw [h.2]
      rfl
  have hcount : ∀ ms, List.count Effect.lock (rangeLoop c ms).2 = 0 ∧
      List.count Effect.unlock (rangeLoop c ms).2 = 0 := by
    intro ms
    constructor
    · refine List.count_eq_zero.2 (fun hmem => ?_)
      rcases rangeLoop_effects ms c _ hmem with ⟨line, hl⟩ | ⟨ch, v, hl⟩
      · exact Effect.noConfusion hl
      · exact Effect.noConfusion hl
    · refine List.count_eq_zero.2 (fun hmem => ?_)
      rcases rangeLoop_effects ms c _ hmem with ⟨line, hl⟩ | ⟨ch, v, hl⟩
      · exact Effect.noConfusion hl
      · exact Effect.noConfusion hl
  have hdecoded : ∀ bytes ms, res = HttpResult.body bytes → unmarshal bytes = Except.ok ms →
      (fetchMeasurements unmarshal res c).effects =
        [Effect.httpGet measurementsURL, Effect.lock] ++ (rangeLoop c ms).2 ++
          [Effect.unlock] := by
    intro bytes ms hres hdec
    rw [fetchMeasurements_decoded unmarshal res c bytes ms hres hdec]
  refine ⟨?_, ?_, ?_⟩
  · intro bytes ms hres hdec
    have he := hdecoded bytes ms hres hdec
    refine ⟨he, ?_, rangeLoop_effects ms c, ?_, ?_⟩
    · rw [he]
      exact (key ms).1
    · rw [he]
      simp [List.count_cons, List.count_append, (hcount ms).1]
    · rw [he]
      simp [List.count_cons, List.count_append, (hcount ms).2]
  · intro hf
    obtain ⟨err, h⟩ := fetchMeasurements_failed unmarshal res c hf
    rw [h]
  · cases hf : cycleFailed unmarshal res with
    | true =>
      obtain ⟨err, h⟩ := fetchMeasurements_failed unmarshal res c hf
      rw [h]
      simp [whileLocked, heldAfter, published]
    | false =>
      obtain ⟨bytes, ms, hres, hdec⟩ := cycleFailed_eq_false unmarshal res hf
      rw [hdecoded bytes ms hres hdec, (key ms).1, (key ms).2]
      refine ⟨?_, ?_, rfl⟩
      · simp [published_append, published]
      · intro url hmem
        rcases rangeLoop_effects ms c _ hmem with ⟨line, hl⟩ | ⟨ch, v, hl⟩
        · exact Effect.noConfusion hl
        · exact Effect.noConfusion hl

/-- C9, amended, on the first sighting of `A`: the insertion is made between the
`lock` and the `unlock` of the call, and nothing is published. -/
theorem publishes_are_made_under_the_lock_witness :
    (fetchMeasurements (fun _ => Except.ok [recA5]) (netUp 0) Cache.empty).effects =
      [Effect.httpGet measurementsURL, Effect.lock] ++ (rangeLoop Cache.empty [recA5]).2 ++
        [Effect.unlock] ∧
    (fetchMeasurements (fun _ => Except.ok [recA5]) (netUp 0) Cache.empty).effects =
      [Effect.httpGet measurementsURL, Effect.lock,
        Effect.printf "No data for source 'A', creating key.\n", Effect.unlock] :=
  ⟨((publishes_are_made_under_the_lock (fun _ => Except.ok [recA5]) (netUp 0) Cache.empty).1
    "[...]" [recA5] rfl rfl).1, by decide⟩

end Aqmap
